import Mathlib

/-
Shallow embedding of `src/rectangle.py`.

Modelling conventions:
* A 2-D point is a pair of exact rationals (the Python code stores float32
  coordinates; the arithmetic performed on them — sums, differences, squares,
  square roots fed to `int(...)` — is modelled exactly over `ℚ`).
* `np.argmin` / `np.argmax` return the FIRST index attaining the extremum; the
  unrolled folds `argmin4` / `argmax4` below reproduce that first-occurrence
  (stable) semantics over the four indices.
* `np.diff(pts, axis=1)` on a (4,2) array yields `pts[:,1] - pts[:,0]`,
  i.e. `y - x` for each point; `ptDiff` is that value.
* Library primitives of OpenCV (grayscale conversion, Canny, contour
  extraction, polygon approximation, convexity test, in-place contour
  drawing, perspective warping) are external collaborators: they are fields
  of the `CV` structure and the pipeline is parametric in them.  Everything
  the repository itself computes (ordering, dimension arithmetic, the
  sort/take-5/first-match selection, the branch structure of `rectangle`) is
  embedded concretely.
* `cv2.drawContours(img, ...)` draws on the passed buffer in place and
  returns that same buffer; `rectangle` therefore threads the caller's
  buffer state explicitly, and its result triple is
  (caller's buffer after the call, contour_img, warped_img).
  Since `rectangle.py` line 105 passes `img` itself (not `img.copy()`),
  the buffer after the call is the drawn-on image, and line 106 computes the
  warp from that already-annotated buffer.
* `sorted(cnts, key=cv2.contourArea, reverse=True)` is Python's stable sort,
  descending by key, ties kept in original order; it is modelled by
  `List.insertionSort` with the relation `key b ≤ key a`, whose permutation,
  sortedness and stability properties are proved below.
* `int(np.sqrt(d))` for `d ≥ 0` truncates the real square root toward zero,
  which is `⌊√d⌋`, and `⌊√d⌋ = Nat.sqrt ⌊d⌋` (proved below as
  `intSqrtQ_eq_floor_sqrt`); `intSqrtQ` is that computable value.
-/

/-- A planar point with exact rational coordinates. -/
abbrev Point : Type := ℚ × ℚ

/-- Row sum `x + y` used on line 22 of `rectangle.py` (`pts.sum(axis=1)`). -/
def ptSum (p : Point) : ℚ := p.1 + p.2

/-- Row difference produced by `np.diff(pts, axis=1)` on line 28:
`y - x` for each point. -/
def ptDiff (p : Point) : ℚ := p.2 - p.1

/-- First index (among 0,1,2,3) attaining the minimum of `f`: the unrolled
fold of `np.argmin`, which scans left to right and moves only on a strict
improvement. -/
def argmin4 (f : Fin 4 → ℚ) : Fin 4 :=
  if f 1 < f 0 then
    (if f 2 < f 1 then (if f 3 < f 2 then 3 else 2) else (if f 3 < f 1 then 3 else 1))
  else
    (if f 2 < f 0 then (if f 3 < f 2 then 3 else 2) else (if f 3 < f 0 then 3 else 0))

/-- First index (among 0,1,2,3) attaining the maximum of `f`: the unrolled
fold of `np.argmax`. -/
def argmax4 (f : Fin 4 → ℚ) : Fin 4 :=
  if f 0 < f 1 then
    (if f 1 < f 2 then (if f 2 < f 3 then 3 else 2) else (if f 1 < f 3 then 3 else 1))
  else
    (if f 0 < f 2 then (if f 2 < f 3 then 3 else 2) else (if f 0 < f 3 then 3 else 0))

/-- `order_points` (`rectangle.py` lines 6-32): slot 0 (top-left) is the point
with the smallest sum, slot 2 (bottom-right) the largest sum, slot 1
(top-right) the smallest `np.diff` value `y - x`, slot 3 (bottom-left) the
largest `y - x`. -/
def order_points (pts : Fin 4 → Point) : Fin 4 → Point := fun r =>
  match r.val with
  | 0 => pts (argmin4 fun i => ptSum (pts i))
  | 1 => pts (argmin4 fun i => ptDiff (pts i))
  | 2 => pts (argmax4 fun i => ptSum (pts i))
  | _ => pts (argmax4 fun i => ptDiff (pts i))

/-- Squared Euclidean distance, the radicand of the `np.sqrt` calls on lines
51-58 of `rectangle.py`. -/
def sqDist (p q : Point) : ℚ := (p.1 - q.1) ^ 2 + (p.2 - q.2) ^ 2

/-- `int(np.sqrt(d))` for a nonnegative rational radicand `d`: the floor of
the real square root, computed as `Nat.sqrt` of the floor of `d`. -/
def intSqrtQ (d : ℚ) : ℕ := Nat.sqrt (Int.toNat ⌊d⌋)

/-- `maxWidth` of `four_point_transform` (lines 51-53): the larger of the
truncated distances bottom-right↔bottom-left and top-right↔top-left, for an
ordered quadrilateral `rect` = (tl, tr, br, bl) = slots (0, 1, 2, 3). -/
def maxWidthQ (rect : Fin 4 → Point) : ℕ :=
  max (intSqrtQ (sqDist (rect 2) (rect 3))) (intSqrtQ (sqDist (rect 1) (rect 0)))

/-- `maxHeight` of `four_point_transform` (lines 57-59): the larger of the
truncated distances top-right↔bottom-right and top-left↔bottom-left. -/
def maxHeightQ (rect : Fin 4 → Point) : ℕ :=
  max (intSqrtQ (sqDist (rect 1) (rect 2))) (intSqrtQ (sqDist (rect 0) (rect 3)))

/-- The destination rectangle `dst` of lines 65-69, in (tl, tr, br, bl) order.
The width/height are the Python ints `maxWidth`, `maxHeight`; the corner
coordinates are `maxWidth - 1` etc. computed in `ℚ` via a cast (so that a
zero dimension yields `-1` exactly as in Python). -/
def dstQuad (w h : ℕ) : Fin 4 → Point := fun r =>
  match r.val with
  | 0 => ((0 : ℚ), (0 : ℚ))
  | 1 => ((w : ℚ) - 1, (0 : ℚ))
  | 2 => ((w : ℚ) - 1, (h : ℚ) - 1)
  | _ => ((0 : ℚ), (h : ℚ) - 1)

/-- The OpenCV primitives used by `rectangle.py`, kept abstract: the pipeline
is parametric in them.  `warpPerspective` bundles
`cv2.getPerspectiveTransform(rect, dst)` followed by
`cv2.warpPerspective(image, M, (maxWidth, maxHeight))`: it receives the
source quadrilateral, the destination quadrilateral and the destination
size, which together determine the homography and the resampled output.
`drawContours` returns the new state of the buffer it drew on (the real
`cv2.drawContours` draws in place and returns the same buffer). -/
structure CV (Img : Type) (Cnt : Type) where
  cvtColorGray : Img → Img
  canny : Img → ℕ → ℕ → Img
  findContours : Img → List Cnt
  contourArea : Cnt → ℚ
  arcLength : Cnt → ℚ
  approxPolyDP : Cnt → ℚ → List Point
  isContourConvex : List Point → Bool
  drawContours : Img → List Point → Img
  warpPerspective : Img → (Fin 4 → Point) → (Fin 4 → Point) → ℕ → ℕ → Img

/-- The polygon approximation of a contour at tolerance
`0.02 * cv2.arcLength(c, True)` (`rectangle.py` lines 97-98). -/
def approxOf {Img Cnt : Type} (cv : CV Img Cnt) (c : Cnt) : List Point :=
  cv.approxPolyDP c (2 / 100 * cv.arcLength c)

/-- The acceptance test of line 101: the approximated polygon has exactly 4
vertices and is convex. -/
def isQuadApprox {Img Cnt : Type} (cv : CV Img Cnt) (c : Cnt) : Bool :=
  (approxOf cv c).length == 4 && cv.isContourConvex (approxOf cv c)

/-- `screenCnt.reshape(4, 2)` viewed as a corner assignment: the `i`-th vertex
of the approximated polygon (out-of-range indices never arise on the accepted
4-vertex polygon). -/
def toQuad (l : List Point) : Fin 4 → Point :=
  fun i => l.getD i.val ((0 : ℚ), (0 : ℚ))

/-- `four_point_transform` (`rectangle.py` lines 35-74): order the points,
compute the destination dimensions and corners, and warp.  There is no
degeneracy check anywhere in the source: the function unconditionally calls
the warp with whatever dimensions come out (possibly 0). -/
def four_point_transform {Img Cnt : Type} (cv : CV Img Cnt) (image : Img)
    (pts : Fin 4 → Point) : Img :=
  let rect := order_points pts
  cv.warpPerspective image rect (dstQuad (maxWidthQ rect) (maxHeightQ rect))
    (maxWidthQ rect) (maxHeightQ rect)

/-- Python's `sorted(l, key=key, reverse=True)`: stable sort, descending by
`key`, ties kept in input order.  `List.insertionSort` with relation
`key b ≤ key a` has exactly these properties (proved below). -/
def sortDesc {α : Type} (key : α → ℚ) (l : List α) : List α :=
  List.insertionSort (fun a b => key b ≤ key a) l

/-- Lines 86-90 of `rectangle.py`: grayscale conversion, Canny with fixed
thresholds 50/100, contour extraction (the `edged.copy()`, the `RETR_TREE` /
`CHAIN_APPROX_SIMPLE` flags and `imutils.grab_contours` unwrapping are
absorbed into the abstract `findContours`). -/
def contoursOf {Img Cnt : Type} (cv : CV Img Cnt) (img : Img) : List Cnt :=
  cv.findContours (cv.canny (cv.cvtColorGray img) 50 100)

/-- Line 91: sort by contour area descending (stable) and keep the top 5. -/
def rankedTop5 {Img Cnt : Type} (cv : CV Img Cnt) (cnts : List Cnt) : List Cnt :=
  (sortDesc cv.contourArea cnts).take 5

/-- Lines 93-103: scan the ranked candidates in order and accept the first
whose approximation is a convex quadrilateral, stopping immediately
(`break`). -/
def selectQuad {Img Cnt : Type} (cv : CV Img Cnt) (cnts : List Cnt) : Option Cnt :=
  (rankedTop5 cv cnts).find? (isQuadApprox cv)

/-- `rectangle` (`rectangle.py` lines 77-109).  The result triple is
(state of the caller's input buffer after the call, contour_img, warped_img).
On success the outline of the accepted approximation is drawn IN PLACE on the
caller's buffer (line 105 passes `img`, not a copy), `contour_img` is that
same buffer, and the warp of line 106 reads the already-drawn buffer.  On
failure the unmodified input is returned for both outputs. -/
def rectangle {Img Cnt : Type} (cv : CV Img Cnt) (img : Img) : Img × Img × Img :=
  match selectQuad cv (contoursOf cv img) with
  | some c =>
      let drawn := cv.drawContours img (approxOf cv c)
      (drawn, drawn, four_point_transform cv drawn (toQuad (approxOf cv c)))
  | none => (img, img, img)

/-- `i` is the first index attaining the minimum of `f`: it is a minimizer and
precedes every index achieving the same value (the stable-argmin contract). -/
def FirstMin (f : Fin 4 → ℚ) (i : Fin 4) : Prop :=
  (∀ j, f i ≤ f j) ∧ ∀ j, f j = f i → i ≤ j

/-- `i` is the first index attaining the maximum of `f`. -/
def FirstMax (f : Fin 4 → ℚ) (i : Fin 4) : Prop :=
  (∀ j, f j ≤ f i) ∧ ∀ j, f j = f i → i ≤ j

/-- The four extremal choices made by `order_points` are uniquely attained:
unique smallest and largest sum, unique smallest and largest difference. -/
def UniqueExtrema (pts : Fin 4 → Point) : Prop :=
  (∃ i, ∀ j, j ≠ i → ptSum (pts i) < ptSum (pts j)) ∧
  (∃ i, ∀ j, j ≠ i → ptSum (pts j) < ptSum (pts i)) ∧
  (∃ i, ∀ j, j ≠ i → ptDiff (pts i) < ptDiff (pts j)) ∧
  (∃ i, ∀ j, j ≠ i → ptDiff (pts j) < ptDiff (pts i))

/-- Dot product of two rational plane vectors. -/
def qdot (u v : Point) : ℚ := u.1 * v.1 + u.2 * v.2

/-- Vector from `v` to `u`. -/
def qsub (u v : Point) : Point := (u.1 - v.1, u.2 - v.2)

/-- `a b c d` are the consecutive vertices of a nondegenerate rectangle:
right angles at every corner and no collapsed side. -/
def RightCycle (a b c d : Point) : Prop :=
  qdot (qsub b a) (qsub c b) = 0 ∧ qdot (qsub c b) (qsub d c) = 0 ∧
  qdot (qsub d c) (qsub a d) = 0 ∧ qdot (qsub a d) (qsub b a) = 0 ∧
  b ≠ a ∧ c ≠ b

/-- The four points form a valid rectangle corner set: in some order they are
the consecutive vertices of a nondegenerate rectangle. -/
def IsRectangle (pts : Fin 4 → Point) : Prop :=
  ∃ σ : Fin 4 → Fin 4, Function.Bijective σ ∧
    RightCycle (pts (σ 0)) (pts (σ 1)) (pts (σ 2)) (pts (σ 3))

/-- Axis-aligned square with corners (0,0), (2,0), (2,2), (0,2): the minimum
of `x - y` is uniquely attained at index 3 = (0,2). -/
def sqPts : Fin 4 → Point := fun i =>
  match i.val with
  | 0 => (0, 0)
  | 1 => (2, 0)
  | 2 => (2, 2)
  | _ => (0, 2)

/-- A square rotated by 45 degrees (a diamond): the sums and the differences
are tied in pairs, so the stable argmin/argmax answers depend on input
order. -/
def ptsDiamond : Fin 4 → Point := fun i =>
  match i.val with
  | 0 => (0, 0)
  | 1 => (1, 1)
  | 2 => (0, 2)
  | _ => (-1, 1)

/-- The same four diamond corners, listed in reversed order. -/
def ptsDiamondRev : Fin 4 → Point := fun i =>
  match i.val with
  | 0 => (-1, 1)
  | 1 => (0, 2)
  | 2 => (1, 1)
  | _ => (0, 0)

/-- The order-reversing map on `Fin 4`. -/
def rev4 : Fin 4 → Fin 4 := fun i =>
  match i.val with
  | 0 => 3
  | 1 => 2
  | 2 => 1
  | _ => 0

/-- The order-reversing map as a permutation, for composing with
`order_points` arguments. -/
def rev4Perm : Equiv.Perm (Fin 4) :=
  ⟨rev4, rev4, by intro x; fin_cases x <;> rfl, by intro x; fin_cases x <;> rfl⟩

/-- All four corners collapsed onto the origin: a degenerate (duplicate-point)
input for `four_point_transform`. -/
def dupPts : Fin 4 → Point := fun _ => (0, 0)

/-- A concrete quadrilateral approximation used by the test instantiations. -/
def quadEx : List Point := [(0, 0), (1, 0), (1, 1), (0, 1)]

/-- Trivial instantiation of the OpenCV primitives on `ℕ` buffers: no
contours are ever found, drawing and warping leave the buffer unchanged. -/
def cvId : CV ℕ ℕ :=
  ⟨fun i => i, fun i _ _ => i, fun _ => [], fun _ => 0, fun _ => 0,
   fun _ _ => [], fun _ => false, fun i _ => i, fun i _ _ _ _ => i⟩

/-- Instantiation in which one contour is found, its approximation is a convex
quadrilateral, and drawing visibly changes the buffer (adds 1): used to
exhibit the in-place mutation of the caller's buffer. -/
def cvFound : CV ℕ ℕ :=
  ⟨fun i => i, fun i _ _ => i, fun _ => [0], fun c => (c : ℚ), fun _ => 0,
   fun _ _ => quadEx, fun _ => true, fun i _ => i + 1, fun i _ _ _ _ => i⟩

/-- Instantiation with six contours of distinct areas (their own value), where
odd-numbered contours approximate to a convex quadrilateral. -/
def cvSix : CV ℕ ℕ :=
  ⟨fun i => i, fun i _ _ => i, fun _ => [3, 9, 4, 8, 7, 6], fun c => (c : ℚ),
   fun _ => 0, fun c _ => if c % 2 = 1 then quadEx else [],
   fun l => !l.isEmpty, fun i _ => i + 1, fun i _ _ _ _ => i⟩

/-- The six contour list fed to `cvSix` in the selection witness. -/
def l6 : List ℕ := [3, 9, 4, 8, 7, 6]

/-! ### Generic facts about the stable four-way argmin/argmax -/

theorem fin4_forall {P : Fin 4 → Prop} (h0 : P 0) (h1 : P 1) (h2 : P 2) (h3 : P 3) :
    ∀ j, P j := by
  intro j; fin_cases j <;> assumption

theorem argmin4_le (f : Fin 4 → ℚ) : ∀ j, f (argmin4 f) ≤ f j := by
  unfold argmin4
  split_ifs with h1 h2 h3 <;> refine fin4_forall ?_ ?_ ?_ ?_ <;> linarith

theorem argmin4_first (f : Fin 4 → ℚ) : ∀ j, f j = f (argmin4 f) → argmin4 f ≤ j := by
  unfold argmin4
  split_ifs with h1 h2 h3 <;> refine fin4_forall ?_ ?_ ?_ ?_ <;> intro hEq <;>
    first
    | decide
    | (exfalso; linarith)

theorem argmax4_ge (f : Fin 4 → ℚ) : ∀ j, f j ≤ f (argmax4 f) := by
  unfold argmax4
  split_ifs with h1 h2 h3 <;> refine fin4_forall ?_ ?_ ?_ ?_ <;> linarith

theorem argmax4_first (f : Fin 4 → ℚ) : ∀ j, f j = f (argmax4 f) → argmax4 f ≤ j := by
  unfold argmax4
  split_ifs with h1 h2 h3 <;> refine fin4_forall ?_ ?_ ?_ ?_ <;> intro hEq <;>
    first
    | decide
    | (exfalso; linarith)

theorem argmin4_firstMin (f : Fin 4 → ℚ) : FirstMin f (argmin4 f) :=
  ⟨argmin4_le f, argmin4_first f⟩

theorem argmax4_firstMax (f : Fin 4 → ℚ) : FirstMax f (argmax4 f) :=
  ⟨argmax4_ge f, argmax4_first f⟩

theorem argmin4_eq_of_forall_lt (f : Fin 4 → ℚ) (i : Fin 4)
    (h : ∀ j, j ≠ i → f i < f j) : argmin4 f = i := by
  by_contra hne
  have hle := argmin4_le f i
  have hlt := h (argmin4 f) hne
  linarith

theorem argmax4_eq_of_forall_lt (f : Fin 4 → ℚ) (i : Fin 4)
    (h : ∀ j, j ≠ i → f j < f i) : argmax4 f = i := by
  by_contra hne
  have hge := argmax4_ge f i
  have hlt := h (argmax4 f) hne
  linarith

/-! ### Permutation invariance of `order_points` under unique extrema -/

theorem order_points_comp_perm (pts : Fin 4 → Point) (s : Equiv.Perm (Fin 4))
    (h : UniqueExtrema pts) :
    order_points (fun i => pts (s i)) = order_points pts := by
  obtain ⟨⟨i0, h0⟩, ⟨i2, h2⟩, ⟨i1, h1⟩, ⟨i3, h3⟩⟩ := h
  have map_ne : ∀ i : Fin 4, ∀ j, j ≠ s.symm i → s j ≠ i := by
    intro i j hj hc
    exact hj (by rw [← hc, Equiv.symm_apply_apply])
  have e0 : argmin4 (fun i => ptSum (pts (s i))) = s.symm i0 := by
    apply argmin4_eq_of_forall_lt
    intro j hj
    simpa [Equiv.apply_symm_apply] using h0 (s j) (map_ne i0 j hj)
  have e0' : argmin4 (fun i => ptSum (pts i)) = i0 := argmin4_eq_of_forall_lt _ _ h0
  have e2 : argmax4 (fun i => ptSum (pts (s i))) = s.symm i2 := by
    apply argmax4_eq_of_forall_lt
    intro j hj
    simpa [Equiv.apply_symm_apply] using h2 (s j) (map_ne i2 j hj)
  have e2' : argmax4 (fun i => ptSum (pts i)) = i2 := argmax4_eq_of_forall_lt _ _ h2
  have e1 : argmin4 (fun i => ptDiff (pts (s i))) = s.symm i1 := by
    apply argmin4_eq_of_forall_lt
    intro j hj
    simpa [Equiv.apply_symm_apply] using h1 (s j) (map_ne i1 j hj)
  have e1' : argmin4 (fun i => ptDiff (pts i)) = i1 := argmin4_eq_of_forall_lt _ _ h1
  have e3 : argmax4 (fun i => ptDiff (pts (s i))) = s.symm i3 := by
    apply argmax4_eq_of_forall_lt
    intro j hj
    simpa [Equiv.apply_symm_apply] using h3 (s j) (map_ne i3 j hj)
  have e3' : argmax4 (fun i => ptDiff (pts i)) = i3 := argmax4_eq_of_forall_lt _ _ h3
  have s0 : order_points (fun i => pts (s i)) 0 = pts i0 := by
    show (fun i => pts (s i)) (argmin4 fun i => ptSum (pts (s i))) = pts i0
    rw [e0]; simp [Equiv.apply_symm_apply]
  have s0' : order_points pts 0 = pts i0 := by
    show pts (argmin4 fun i => ptSum (pts i)) = pts i0
    rw [e0']
  have s1 : order_points (fun i => pts (s i)) 1 = pts i1 := by
    show (fun i => pts (s i)) (argmin4 fun i => ptDiff (pts (s i))) = pts i1
    rw [e1]; simp [Equiv.apply_symm_apply]
  have s1' : order_points pts 1 = pts i1 := by
    show pts (argmin4 fun i => ptDiff (pts i)) = pts i1
    rw [e1']
  have s2 : order_points (fun i => pts (s i)) 2 = pts i2 := by
    show (fun i => pts (s i)) (argmax4 fun i => ptSum (pts (s i))) = pts i2
    rw [e2]; simp [Equiv.apply_symm_apply]
  have s2' : order_points pts 2 = pts i2 := by
    show pts (argmax4 fun i => ptSum (pts i)) = pts i2
    rw [e2']
  have s3 : order_points (fun i => pts (s i)) 3 = pts i3 := by
    show (fun i => pts (s i)) (argmax4 fun i => ptDiff (pts (s i))) = pts i3
    rw [e3]; simp [Equiv.apply_symm_apply]
  have s3' : order_points pts 3 = pts i3 := by
    show pts (argmax4 fun i => ptDiff (pts i)) = pts i3
    rw [e3']
  funext r
  fin_cases r
  · exact s0.trans s0'.symm
  · exact s1.trans s1'.symm
  · exact s2.trans s2'.symm
  · exact s3.trans s3'.symm

/-! ### Properties of the stable descending sort and of the first-match scan -/

theorem sortDesc_perm {α : Type} (key : α → ℚ) (l : List α) : (sortDesc key l).Perm l :=
  List.perm_insertionSort _ l

theorem sortDesc_sorted {α : Type} (key : α → ℚ) (l : List α) :
    (sortDesc key l).Sorted (fun a b => key b ≤ key a) := by
  letI : IsTotal α (fun a b => key b ≤ key a) := ⟨fun a b => le_total (key b) (key a)⟩
  letI : IsTrans α (fun a b => key b ≤ key a) := ⟨fun a b c hab hbc => le_trans hbc hab⟩
  exact List.sorted_insertionSort _ l

theorem sortDesc_filter_key {α : Type} (key : α → ℚ) (l : List α) (q : ℚ) :
    (sortDesc key l).filter (fun c => decide (key c = q)) =
      l.filter (fun c => decide (key c = q)) := by
  have hpair : (l.filter (fun c => decide (key c = q))).Pairwise (fun a b => key b ≤ key a) := by
    apply List.pairwise_of_forall_mem_list
    intro a ha b hb
    have ha' : key a = q := of_decide_eq_true (List.mem_filter.mp ha).2
    have hb' : key b = q := of_decide_eq_true (List.mem_filter.mp hb).2
    rw [ha', hb']
  have hsub : (l.filter (fun c => decide (key c = q))).Sublist (sortDesc key l) :=
    List.sublist_insertionSort hpair (List.filter_sublist l)
  have hsub2 := List.Sublist.filter (fun c => decide (key c = q)) hsub
  rw [List.filter_filter] at hsub2
  simp only [Bool.and_self] at hsub2
  have hperm : ((sortDesc key l).filter (fun c => decide (key c = q))).Perm
      (l.filter (fun c => decide (key c = q))) :=
    (sortDesc_perm key l).filter _
  exact (hsub2.eq_of_length hperm.length_eq.symm).symm

theorem find?_some_decomp {α : Type} (p : α → Bool) :
    ∀ (l : List α) (c : α), l.find? p = some c →
      p c = true ∧ ∃ pre post, l = pre ++ c :: post ∧ ∀ x ∈ pre, p x = false := by
  intro l
  induction l with
  | nil => intro c h; simp [List.find?] at h
  | cons a t ih =>
    intro c h
    by_cases ha : p a = true
    · rw [List.find?_cons_of_pos _ ha] at h
      obtain rfl : a = c := by injection h
      exact ⟨ha, [], t, rfl, by intro x hx; simp at hx⟩
    · rw [List.find?_cons_of_neg _ ha] at h
      obtain ⟨hc, pre, post, ht, hpre⟩ := ih c h
      refine ⟨hc, a :: pre, post, by rw [ht]; rfl, ?_⟩
      intro x hx
      rcases List.mem_cons.mp hx with rfl | hx'
      · simpa using ha
      · exact hpre x hx'

/-! ### Truncated square roots: `int(np.sqrt(d))` is the floor of the real root -/

theorem intSqrtQ_eq_floor_sqrt (d : ℚ) (hd : 0 ≤ d) :
    (intSqrtQ d : ℤ) = ⌊Real.sqrt (d : ℝ)⌋ := by
  have hd0 : (0 : ℝ) ≤ (d : ℝ) := by exact_mod_cast hd
  have hfl : (0 : ℤ) ≤ ⌊d⌋ := Int.floor_nonneg.mpr hd
  set m : ℕ := Int.toNat ⌊d⌋ with hm
  have hmd : ((m : ℚ)) ≤ d := by
    have h1 : ((⌊d⌋ : ℤ) : ℚ) ≤ d := Int.floor_le d
    have h2 : ((m : ℤ) : ℚ) = ((⌊d⌋ : ℤ) : ℚ) := by
      rw [hm, Int.toNat_of_nonneg hfl]
    push_cast at h2 ⊢
    rw [h2]; exact h1
  have hdm : d < (m : ℚ) + 1 := by
    have h1 : d < ((⌊d⌋ : ℤ) : ℚ) + 1 := Int.lt_floor_add_one d
    have h2 : ((m : ℤ) : ℚ) = ((⌊d⌋ : ℤ) : ℚ) := by
      rw [hm, Int.toNat_of_nonneg hfl]
    push_cast at h2 ⊢
    rw [h2]; exact h1
  have hmdR : ((m : ℝ)) ≤ (d : ℝ) := by exact_mod_cast hmd
  have hdmR : (d : ℝ) < (m : ℝ) + 1 := by exact_mod_cast hdm
  symm
  rw [Int.floor_eq_iff]
  constructor
  · have h1 : ((Nat.sqrt m : ℝ)) ≤ Real.sqrt (m : ℝ) := Real.nat_sqrt_le_real_sqrt
    have h2 : Real.sqrt (m : ℝ) ≤ Real.sqrt (d : ℝ) := Real.sqrt_le_sqrt hmdR
    push_cast
    exact le_trans h1 h2
  · have hpos : (0 : ℝ) < (Nat.sqrt m : ℝ) + 1 := by positivity
    have hnat : m + 1 ≤ (Nat.sqrt m + 1) * (Nat.sqrt m + 1) := Nat.lt_succ_sqrt m
    have hnatR : (m : ℝ) + 1 ≤ ((Nat.sqrt m : ℝ) + 1) * ((Nat.sqrt m : ℝ) + 1) := by
      exact_mod_cast hnat
    have hlt : Real.sqrt (d : ℝ) < (Nat.sqrt m : ℝ) + 1 := by
      rw [Real.sqrt_lt' hpos]
      nlinarith
    push_cast
    exact hlt

theorem intSqrtQ_sqDist_eq (p q : Point) :
    (intSqrtQ (sqDist p q) : ℤ) =
      ⌊Real.sqrt (((p.1 : ℝ) - (q.1 : ℝ)) ^ 2 + ((p.2 : ℝ) - (q.2 : ℝ)) ^ 2)⌋ := by
  have hcast : ((sqDist p q : ℚ) : ℝ) =
      ((p.1 : ℝ) - (q.1 : ℝ)) ^ 2 + ((p.2 : ℝ) - (q.2 : ℝ)) ^ 2 := by
    rw [sqDist]; push_cast; ring
  rw [← hcast]
  exact intSqrtQ_eq_floor_sqrt _ (add_nonneg (sq_nonneg _) (sq_nonneg _))

theorem max_intSqrt_eq_floor_max (a b : Point × Point) :
    ((max (intSqrtQ (sqDist a.1 a.2)) (intSqrtQ (sqDist b.1 b.2)) : ℕ) : ℤ) =
      ⌊max (Real.sqrt (((a.1.1 : ℝ) - (a.2.1 : ℝ)) ^ 2 + ((a.1.2 : ℝ) - (a.2.2 : ℝ)) ^ 2))
           (Real.sqrt (((b.1.1 : ℝ) - (b.2.1 : ℝ)) ^ 2 + ((b.1.2 : ℝ) - (b.2.2 : ℝ)) ^ 2))⌋ := by
  rw [Nat.cast_max, intSqrtQ_sqDist_eq, intSqrtQ_sqDist_eq]
  exact (Monotone.map_max Int.floor_mono).symm

/-! ### Claims about `order_points` (C1, C7, C10) -/

/-- Claim C1 counterexample: on the axis-aligned square (0,0),(2,0),(2,2),(0,2)
the minimum of `x - y` is uniquely attained at input index 3 = (0,2) and the
maximum uniquely at index 1 = (2,0), yet `order_points` does NOT place the
minimizer in the top-right slot nor the maximizer in the bottom-left slot —
it does exactly the opposite, because `np.diff` computes `y - x`, not
`x - y`. -/
theorem order_points_tr_bl_sign_cex :
    (∀ j : Fin 4, j ≠ 3 → (sqPts 3).1 - (sqPts 3).2 < (sqPts j).1 - (sqPts j).2) ∧
    (∀ j : Fin 4, j ≠ 1 → (sqPts j).1 - (sqPts j).2 < (sqPts 1).1 - (sqPts 1).2) ∧
    order_points sqPts 1 ≠ sqPts 3 ∧ order_points sqPts 3 ≠ sqPts 1 ∧
    order_points sqPts 1 = sqPts 1 ∧ order_points sqPts 3 = sqPts 3 := by
  with_unfolding_all decide

/-- Claim C1 (amended): for every input of 4 points, `order_points` assigns
top-left (slot 0) to the first point minimizing `x + y`, bottom-right
(slot 2) to the first point maximizing `x + y`, top-right (slot 1) to the
first point MAXIMIZING `x - y`, and bottom-left (slot 3) to the first point
MINIMIZING `x - y` (the code computes stable argmin/argmax of the `np.diff`
value `y - x`), with ties broken by the first such point in input order
(stable argmin/argmax). -/
theorem order_points_stable_extrema (pts : Fin 4 → Point) :
    (∃ i, FirstMin (fun k => ptSum (pts k)) i ∧ order_points pts 0 = pts i) ∧
    (∃ i, FirstMax (fun k => ptSum (pts k)) i ∧ order_points pts 2 = pts i) ∧
    (∃ i, FirstMax (fun k => (pts k).1 - (pts k).2) i ∧ order_points pts 1 = pts i) ∧
    (∃ i, FirstMin (fun k => (pts k).1 - (pts k).2) i ∧ order_points pts 3 = pts i) := by
  refine ⟨⟨argmin4 (fun k => ptSum (pts k)), argmin4_firstMin _, rfl⟩,
          ⟨argmax4 (fun k => ptSum (pts k)), argmax4_firstMax _, rfl⟩,
          ⟨argmin4 (fun k => ptDiff (pts k)), ?_, rfl⟩,
          ⟨argmax4 (fun k => ptDiff (pts k)), ?_, rfl⟩⟩
  · obtain ⟨ha, hb⟩ := argmin4_firstMin (fun k => ptDiff (pts k))
    set i := argmin4 (fun k => ptDiff (pts k)) with hi
    constructor
    · intro j
      have hj := ha j
      simp only [ptDiff] at hj
      show (pts j).1 - (pts j).2 ≤ (pts i).1 - (pts i).2
      linarith
    · intro j hj
      have hj' : (pts j).1 - (pts j).2 = (pts i).1 - (pts i).2 := hj
      apply hb
      show ptDiff (pts j) = ptDiff (pts i)
      simp only [ptDiff]
      linarith
  · obtain ⟨ha, hb⟩ := argmax4_firstMax (fun k => ptDiff (pts k))
    set i := argmax4 (fun k => ptDiff (pts k)) with hi
    constructor
    · intro j
      have hj := ha j
      simp only [ptDiff] at hj
      show (pts i).1 - (pts i).2 ≤ (pts j).1 - (pts j).2
      linarith
    · intro j hj
      have hj' : (pts j).1 - (pts j).2 = (pts i).1 - (pts i).2 := hj
      apply hb
      show ptDiff (pts j) = ptDiff (pts i)
      simp only [ptDiff]
      linarith

/-- Witness for the amended claim C1 at the concrete square `sqPts`. -/
theorem order_points_stable_extrema_witness :
    ∃ i, FirstMax (fun k => (sqPts k).1 - (sqPts k).2) i ∧ order_points sqPts 1 = sqPts i :=
  (order_points_stable_extrema sqPts).2.2.1

/-- Claim C7 counterexample: the 45-degree-rotated square `ptsDiamond` is a
valid rectangle corner set, `ptsDiamondRev` lists the same four corners in
reversed order, and `order_points` gives two different role assignments on
the two orders (the tied sums/differences make the stable tie-break
order-dependent). -/
theorem order_points_rectangle_perm_cex :
    IsRectangle ptsDiamond ∧ (∀ i, ptsDiamondRev i = ptsDiamond (rev4Perm i)) ∧
    order_points ptsDiamondRev ≠ order_points ptsDiamond := by
  refine ⟨?_, ?_, ?_⟩
  · unfold IsRectangle RightCycle
    with_unfolding_all decide
  · intro i; fin_cases i <;> rfl
  · with_unfolding_all decide

/-- Claim C7 (amended): for any 4 points whose extremal sums and differences
are each uniquely attained — which holds for every rectangle that does not
produce ties, but fails for a 45-degree-rotated one — `order_points` applied
to any permutation of the same points yields the identical canonical
ordering. -/
theorem order_points_perm_invariant (pts : Fin 4 → Point) (s : Equiv.Perm (Fin 4))
    (h : UniqueExtrema pts) :
    order_points (fun i => pts (s i)) = order_points pts :=
  order_points_comp_perm pts s h

/-- Witness for the amended claim C7: the axis-aligned square has unique
extrema and reversing its corner order does not change the output. -/
theorem order_points_perm_invariant_witness :
    UniqueExtrema sqPts ∧ order_points (fun i => sqPts (rev4Perm i)) = order_points sqPts :=
  ⟨by unfold UniqueExtrema; with_unfolding_all decide,
   order_points_perm_invariant sqPts rev4Perm (by unfold UniqueExtrema; with_unfolding_all decide)⟩

/-- Claim C10: every role slot of `order_points` is filled by some input
point; but the output need not be a permutation of the input: on the diamond
(whose four corners are pairwise distinct), the point (0,0) fills both the
top-left and the top-right slots and the input point at index 3 = (-1,1)
appears in no slot at all. -/
theorem order_points_slots_from_input :
    (∀ (pts : Fin 4 → Point) (r : Fin 4), ∃ i, order_points pts r = pts i) ∧
    (∀ i : Fin 4, i ≠ 3 → ptsDiamond i ≠ ptsDiamond 3) ∧
    order_points ptsDiamond 0 = order_points ptsDiamond 1 ∧
    (∀ r, order_points ptsDiamond r ≠ ptsDiamond 3) := by
  refine ⟨?_, ?_, ?_, ?_⟩
  · intro pts r
    fin_cases r
    · exact ⟨argmin4 (fun i => ptSum (pts i)), rfl⟩
    · exact ⟨argmin4 (fun i => ptDiff (pts i)), rfl⟩
    · exact ⟨argmax4 (fun i => ptSum (pts i)), rfl⟩
    · exact ⟨argmax4 (fun i => ptDiff (pts i)), rfl⟩
  · with_unfolding_all decide
  · with_unfolding_all decide
  · with_unfolding_all decide

/-- Witness for claim C10 at the concrete diamond input. -/
theorem order_points_slots_from_input_witness :
    ∃ i, order_points ptsDiamond 0 = ptsDiamond i :=
  order_points_slots_from_input.1 ptsDiamond 0

/-! ### Claims about the pipeline `rectangle` (C2, C3, C8) and the warp (C4, C5, C9) -/

/-- Claim C2 counterexample: with primitives whose `drawContours` visibly
changes the buffer it draws on (as the real in-place `cv2.drawContours`
does), a successful `rectangle` call leaves the caller's input buffer
(the first component of the result triple) different from the original:
line 105 of `rectangle.py` draws on `img` itself, not on a copy. -/
theorem rectangle_mutates_caller_buffer_cex :
    (rectangle cvFound 0).1 ≠ 0 ∧ rectangle cvFound 0 = (1, 1, 1) := by
  with_unfolding_all decide

/-- Claim C2 (amended): when `detectRectangle` finds a quadrilateral, the
outline is drawn in place onto the caller's original input buffer; the
annotated output aliases that drawn-on buffer (no copy is made), and the
warped output is computed from the already-annotated buffer. -/
theorem rectangle_draws_in_place {Img Cnt : Type} (cv : CV Img Cnt) (img : Img) (c : Cnt)
    (h : selectQuad cv (contoursOf cv img) = some c) :
    rectangle cv img =
      (cv.drawContours img (approxOf cv c), cv.drawContours img (approxOf cv c),
        four_point_transform cv (cv.drawContours img (approxOf cv c))
          (toQuad (approxOf cv c))) := by
  unfold rectangle
  rw [h]

/-- Witness for the amended claim C2 at the concrete instantiation
`cvFound`, where the single contour is accepted. -/
theorem rectangle_draws_in_place_witness :
    rectangle cvFound 0 =
      (cvFound.drawContours 0 (approxOf cvFound 0), cvFound.drawContours 0 (approxOf cvFound 0),
        four_point_transform cvFound (cvFound.drawContours 0 (approxOf cvFound 0))
          (toQuad (approxOf cvFound 0))) :=
  rectangle_draws_in_place cvFound 0 0 (by with_unfolding_all decide)

/-- Claim C3: when no candidate among the (at most) top 5 ranked contours
passes the convex-quadrilateral test, `rectangle` returns the original image
for both outputs and leaves the caller's buffer untouched — the result is a
total value, so no error is raised. -/
theorem rectangle_noop_fallback {Img Cnt : Type} (cv : CV Img Cnt) (img : Img)
    (h : ∀ c ∈ rankedTop5 cv (contoursOf cv img), isQuadApprox cv c = false) :
    rectangle cv img = (img, img, img) := by
  have hn : selectQuad cv (contoursOf cv img) = none := by
    apply List.find?_eq_none.mpr
    intro x hx
    simp [h x hx]
  unfold rectangle
  rw [hn]

/-- Witness for claim C3: the trivial instantiation finds no contours, and
`rectangle` passes the input through unchanged. -/
theorem rectangle_noop_fallback_witness :
    (∀ c ∈ rankedTop5 cvId (contoursOf cvId 5), isQuadApprox cvId c = false) ∧
    rectangle cvId 5 = (5, 5, 5) :=
  ⟨by with_unfolding_all decide,
   rectangle_noop_fallback cvId 5 (by with_unfolding_all decide)⟩

/-- Claim C4 (code bug exhibit): on the degenerate input with all four corners
equal, the code computes `maxWidth = maxHeight = 0` and still proceeds to the
perspective warp (the embedding of `four_point_transform` is a total function
with no error branch, mirroring the absence of any degeneracy check or any
`DegenerateQuadrilateral` error in `rectangle.py` lines 35-74). -/
theorem four_point_transform_degenerate_no_error :
    maxWidthQ (order_points dupPts) = 0 ∧ maxHeightQ (order_points dupPts) = 0 ∧
    four_point_transform cvId 7 dupPts = 7 := by
  with_unfolding_all decide

/-- Claim C8: `detectRectangle` is deterministic — it is a pure function of
the input image (given fixed library primitives), so equal inputs yield equal
(buffer, annotated, warped) results. -/
theorem rectangle_deterministic {Img Cnt : Type} (cv : CV Img Cnt) (img img' : Img)
    (h : img = img') : rectangle cv img = rectangle cv img' := by
  rw [h]

/-- Witness for claim C8 at a concrete image. -/
theorem rectangle_deterministic_witness :
    rectangle cvFound 0 = rectangle cvFound 0 :=
  rectangle_deterministic cvFound 0 0 rfl

/-- Claim C9: `four_point_transform` re-canonicalizes its input through
`order_points`, so when the four extremal sum/difference choices are unique,
its output is identical for every permutation of the input points. -/
theorem four_point_transform_perm_invariant {Img Cnt : Type} (cv : CV Img Cnt)
    (image : Img) (pts : Fin 4 → Point) (s : Equiv.Perm (Fin 4))
    (h : UniqueExtrema pts) :
    four_point_transform cv image (fun i => pts (s i)) =
      four_point_transform cv image pts := by
  unfold four_point_transform
  rw [order_points_comp_perm pts s h]

/-- Witness for claim C9 at the axis-aligned square and the reversal
permutation. -/
theorem four_point_transform_perm_invariant_witness :
    UniqueExtrema sqPts ∧
    four_point_transform cvFound 3 (fun i => sqPts (rev4Perm i)) =
      four_point_transform cvFound 3 sqPts :=
  ⟨by unfold UniqueExtrema; with_unfolding_all decide,
   four_point_transform_perm_invariant cvFound 3 sqPts rev4Perm
     (by unfold UniqueExtrema; with_unfolding_all decide)⟩

/-- Claim C5: for ordered corners `rect` = (tl, tr, br, bl) = slots
(0, 1, 2, 3), the computed output width equals
`⌊max (distance(br, bl)) (distance(tr, tl))⌋` and the height equals
`⌊max (distance(tr, br)) (distance(tl, bl))⌋` with real Euclidean distances
(truncating each root before taking the max, as the code does, coincides
with flooring the max); both are at least 1 whenever the input is
non-degenerate in the sense of the spec (computed width and height not
zero — they are never negative); and `four_point_transform` passes exactly
these dimensions to the warp. -/
theorem four_point_transform_dims (rect : Fin 4 → Point) :
    ((maxWidthQ rect : ℤ) =
       ⌊max (Real.sqrt ((((rect 2).1 : ℝ) - ((rect 3).1 : ℝ)) ^ 2 +
                        (((rect 2).2 : ℝ) - ((rect 3).2 : ℝ)) ^ 2))
            (Real.sqrt ((((rect 1).1 : ℝ) - ((rect 0).1 : ℝ)) ^ 2 +
                        (((rect 1).2 : ℝ) - ((rect 0).2 : ℝ)) ^ 2))⌋) ∧
    ((maxHeightQ rect : ℤ) =
       ⌊max (Real.sqrt ((((rect 1).1 : ℝ) - ((rect 2).1 : ℝ)) ^ 2 +
                        (((rect 1).2 : ℝ) - ((rect 2).2 : ℝ)) ^ 2))
            (Real.sqrt ((((rect 0).1 : ℝ) - ((rect 3).1 : ℝ)) ^ 2 +
                        (((rect 0).2 : ℝ) - ((rect 3).2 : ℝ)) ^ 2))⌋) ∧
    (maxWidthQ rect ≠ 0 → 1 ≤ maxWidthQ rect) ∧
    (maxHeightQ rect ≠ 0 → 1 ≤ maxHeightQ rect) ∧
    (∀ (Img Cnt : Type) (cv : CV Img Cnt) (image : Img) (pts : Fin 4 → Point),
       four_point_transform cv image pts =
         cv.warpPerspective image (order_points pts)
           (dstQuad (maxWidthQ (order_points pts)) (maxHeightQ (order_points pts)))
           (maxWidthQ (order_points pts)) (maxHeightQ (order_points pts))) := by
  refine ⟨?_, ?_, ?_, ?_, ?_⟩
  · exact max_intSqrt_eq_floor_max ((rect 2), (rect 3)) ((rect 1), (rect 0))
  · exact max_intSqrt_eq_floor_max ((rect 1), (rect 2)) ((rect 0), (rect 3))
  · intro h; omega
  · intro h; omega
  · intro Img Cnt cv image pts; rfl

/-- Witness for claim C5: the ordered square has nonzero computed width, and
the theorem yields `1 ≤ maxWidthQ`. -/
theorem four_point_transform_dims_witness :
    maxWidthQ sqPts ≠ 0 ∧ 1 ≤ maxWidthQ sqPts :=
  ⟨by with_unfolding_all decide,
   (four_point_transform_dims sqPts).2.2.1 (by with_unfolding_all decide)⟩

/-- Claim C6: the contour ranking used by `rectangle` is a stable descending
sort by area — a permutation of the extracted contours, sorted by
non-increasing area, with every class of equal-area contours kept in original
extraction order — of which only the first 5 entries are ever examined
(`rankedTop5` is literally `take 5` of the sort); the selector accepts
exactly the first entry of that top-5 list passing the convex-quadrilateral
test (everything before it fails the test, so a later better-shaped
candidate or a 6th-largest contour is never selected), and returns none
exactly when every top-5 entry fails. -/
theorem quadrilateral_selector_spec {Img Cnt : Type} (cv : CV Img Cnt) (cnts : List Cnt) :
    ((sortDesc cv.contourArea cnts).Perm cnts) ∧
    ((sortDesc cv.contourArea cnts).Sorted (fun a b => cv.contourArea b ≤ cv.contourArea a)) ∧
    (∀ q : ℚ, (sortDesc cv.contourArea cnts).filter (fun c => decide (cv.contourArea c = q)) =
        cnts.filter (fun c => decide (cv.contourArea c = q))) ∧
    (rankedTop5 cv cnts = (sortDesc cv.contourArea cnts).take 5) ∧
    (∀ c, selectQuad cv cnts = some c →
        isQuadApprox cv c = true ∧
        ∃ pre post, rankedTop5 cv cnts = pre ++ c :: post ∧
          ∀ x ∈ pre, isQuadApprox cv x = false) ∧
    (selectQuad cv cnts = none ↔ ∀ c ∈ rankedTop5 cv cnts, isQuadApprox cv c = false) := by
  refine ⟨sortDesc_perm _ _, sortDesc_sorted _ _, fun q => sortDesc_filter_key _ _ q, rfl, ?_, ?_⟩
  · intro c hc
    exact find?_some_decomp _ _ _ hc
  · constructor
    · intro hn c hc
      have hx := List.find?_eq_none.mp hn c hc
      simpa using hx
    · intro hall
      apply List.find?_eq_none.mpr
      intro x hx
      simp [hall x hx]

/-- Witness for claim C6: among the six distinct-area contours of `cvSix`,
the selector returns 9 — the largest-area candidate passing the test — and
the theorem decomposes the top-5 list around it. -/
theorem quadrilateral_selector_spec_witness :
    isQuadApprox cvSix 9 = true ∧
    ∃ pre post, rankedTop5 cvSix l6 = pre ++ 9 :: post ∧
      ∀ x ∈ pre, isQuadApprox cvSix x = false :=
  (quadrilateral_selector_spec cvSix l6).2.2.2.2.1 9 (by with_unfolding_all decide)
